import Mathlib

/-!
Verification of the `merkle_sum_proof` repository (Merkle Sum Tree over a
MiMC-Sponge hash).  The Rust sources `src/lib.rs` and `src/mimc_sponge.rs`
are shallowly embedded below: field elements become canonical residues
(`Nat` taken mod `p`), `i32` becomes `Int` with explicit range checks,
`Result` becomes `Except MerkleError`, and in-place mutation becomes
explicit state passing.  Loops are embedded as structural recursions
(fuel-indexed where the Rust loop is a `while`), so every definition
evaluates by kernel reduction.

Two pieces of the repository are not among the provided sources and are
modelled from the specification where marked: the 220-entry round-constant
table (`src/constants.rs`) and the external `ff` / std-hasher primitives.
Both are abstracted into a context `Ctx` that all definitions take as a
parameter.
-/

/-- Modulus of the prime field selected at build time in `mimc_sponge.rs`
(the Pallas base field, `PrimeFieldModulus` attribute on `Fr`). -/
def fieldP : Nat :=
  28948022309329048855892746252171976963363056481941647379679742748393362948097

/-- Field addition: `a.add_assign(&b)` on canonical residues. -/
def fadd (a b : Nat) : Nat := (a + b) % fieldP

/-- Field fifth power: `t.pow([5u64])`, the only exponent MiMC uses. -/
def fpow5 (a : Nat) : Nat := (a ^ 5) % fieldP

/-- Context of the externally provided data.

`cs` — Modelled from the spec: the round constants.  `MimcSponge` lifts the
decimal table `C_STR` from `src/constants.rs`, a file not among the provided
sources; per the spec it is a fixed table of 220 field elements.  All
definitions take the lifted table as a parameter.

`idHash` — Modelled from the spec: `Leaf::new` digests the id with the
platform `DefaultHasher` (external std code); the spec leaves the 64-bit
hash function unspecified, so it is abstracted as a function. -/
structure Ctx where
  cs : List Nat
  idHash : String → Nat

/-- The round loop of `MimcSponge::hash`: iteration over the constants with
their index `i`, as in `for (i, c) in self.constants.iter().enumerate()`.
`last` is `last_index = self.constants.len() - 1`. -/
def hash_rounds (k last : Nat) : List Nat → Nat → Nat → Nat → Nat × Nat
  | [], _, xl, xr => (xl, xr)
  | c :: rest, i, xl, xr =>
    let t := fadd xl k
    let t2 := if 0 < i then fadd t c else t
    let t3 := fpow5 t2
    let xr_tmp := fadd xr t3
    if i < last then hash_rounds k last rest (i + 1) xr_tmp xl
    else hash_rounds k last rest (i + 1) xl xr_tmp

/-- `MimcSponge::hash(xl, xr, k)` from `src/mimc_sponge.rs`. -/
def MimcSponge.hash (cs : List Nat) (xl xr k : Nat) : Nat × Nat :=
  hash_rounds k (cs.length - 1) cs 0 xl xr

/-- The squeeze loop of `MimcSponge::multi_hash`: `for _ in 1..num_outputs`,
so it runs `num_outputs - 1` times (zero times when `num_outputs = 0`). -/
def MimcSponge.squeeze (cs : List Nat) (key : Nat) : Nat → Nat × Nat → List Nat
  | 0, _ => []
  | n + 1, rc =>
    let s := MimcSponge.hash cs rc.1 rc.2 key
    s.1 :: MimcSponge.squeeze cs key n s

/-- `MimcSponge::multi_hash(arr, key, num_outputs)` from `src/mimc_sponge.rs`:
absorb every element (`r.add_assign(elem)` then `(r, c) = hash(r, c, key)`),
push `r`, then squeeze the remaining outputs. -/
def MimcSponge.multi_hash (cs : List Nat) (arr : List Nat) (key : Nat)
    (num_outputs : Nat) : List Nat :=
  let rc := arr.foldl
    (fun (s : Nat × Nat) elem => MimcSponge.hash cs (fadd s.1 elem) s.2 key) (0, 0)
  rc.1 :: MimcSponge.squeeze cs key (num_outputs - 1) rc

/-- Modelled from the spec: one round of the 220-round Feistel reference of
section 4.2 — `t = xL + k`, plus `C[i]` only when `i > 0`, then `t^5`,
`tmp = xR + t`; the branches swap for `i < 219` and do not swap in the final
round `i = 219`. -/
def feistel_round (C : Nat → Nat) (k i : Nat) (s : Nat × Nat) : Nat × Nat :=
  let t := fadd s.1 k
  let t2 := if 0 < i then fadd t (C i) else t
  let t3 := fpow5 t2
  let tmp := fadd s.2 t3
  if i < 219 then (tmp, s.1) else (s.1, tmp)

/-- Modelled from the spec: the full 220-round Feistel reference permutation
of section 4.2, rounds indexed `i = 0 .. 219`. -/
def feistel_ref (C : Nat → Nat) (xl xr k : Nat) : Nat × Nat :=
  (List.range 220).foldl (fun s i => feistel_round C k i s) (xl, xr)

/-- Generalisation of `feistel_round` in which the no-swap round is an
arbitrary `last` instead of the literal `219`; used to relate the indexed
loop of the source to the reference. -/
def feistel_round_gen (C : Nat → Nat) (k last i : Nat) (s : Nat × Nat) : Nat × Nat :=
  let t := fadd s.1 k
  let t2 := if 0 < i then fadd t (C i) else t
  let t3 := fpow5 t2
  let tmp := fadd s.2 t3
  if i < last then (tmp, s.1) else (s.1, tmp)

/-- Modelled from the spec: the rate-1/capacity-1 sponge of section 4.2.
Output `j` is the rate half of the state after `j` extra applications of the
permutation to the absorbed state. -/
def sponge_ref (cs : List Nat) (arr : List Nat) (key : Nat) (n_out : Nat) :
    List Nat :=
  let s0 := arr.foldl
    (fun (s : Nat × Nat) elem => MimcSponge.hash cs (fadd s.1 elem) s.2 key) (0, 0)
  (List.range n_out).map
    (fun j => ((fun (s : Nat × Nat) => MimcSponge.hash cs s.1 s.2 key)^[j] s0).1)

theorem hash_rounds_eq_foldl (k last : Nat) (C : Nat → Nat) :
    ∀ (cs : List Nat) (i xl xr : Nat),
      (∀ m, m < cs.length → cs.getD m 0 = C (i + m)) →
      hash_rounds k last cs i xl xr =
        (List.range' i cs.length).foldl
          (fun s j => feistel_round_gen C k last j s) (xl, xr) := by
  intro cs
  induction cs with
  | nil => intro i xl xr _; simp [hash_rounds]
  | cons c rest ih =>
    intro i xl xr hC
    have hc0 : c = C i := by
      have := hC 0 (by simp)
      simpa using this
    have hrest : ∀ m, m < rest.length → rest.getD m 0 = C ((i + 1) + m) := by
      intro m hm
      have := hC (m + 1) (by simpa using Nat.succ_lt_succ hm)
      have harith : i + (m + 1) = (i + 1) + m := by omega
      rw [harith] at this
      simpa using this
    by_cases hlast : i < last
    · have h1 : hash_rounds k last (c :: rest) i xl xr
          = hash_rounds k last rest (i + 1)
              (fadd xr (fpow5 (if 0 < i then fadd (fadd xl k) c else fadd xl k))) xl := by
        simp only [hash_rounds]
        rw [if_pos hlast]
      have h2 : feistel_round_gen C k last i (xl, xr)
          = (fadd xr (fpow5 (if 0 < i then fadd (fadd xl k) (C i) else fadd xl k)), xl) := by
        simp only [feistel_round_gen]
        rw [if_pos hlast]
      rw [h1, ih (i + 1) _ _ hrest]
      simp only [List.length_cons, List.range'_succ, List.foldl_cons]
      rw [h2, hc0]
    · have h1 : hash_rounds k last (c :: rest) i xl xr
          = hash_rounds k last rest (i + 1) xl
              (fadd xr (fpow5 (if 0 < i then fadd (fadd xl k) c else fadd xl k))) := by
        simp only [hash_rounds]
        rw [if_neg hlast]
      have h2 : feistel_round_gen C k last i (xl, xr)
          = (xl, fadd xr (fpow5 (if 0 < i then fadd (fadd xl k) (C i) else fadd xl k))) := by
        simp only [feistel_round_gen]
        rw [if_neg hlast]
      rw [h1, ih (i + 1) _ _ hrest]
      simp only [List.length_cons, List.range'_succ, List.foldl_cons]
      rw [h2, hc0]

theorem squeeze_eq_iterate (cs : List Nat) (key : Nat) :
    ∀ (n : Nat) (s : Nat × Nat),
      MimcSponge.squeeze cs key n s =
        (List.range n).map
          (fun j => ((fun (t : Nat × Nat) => MimcSponge.hash cs t.1 t.2 key)^[j + 1] s).1) := by
  intro n
  induction n with
  | zero => intro s; simp [MimcSponge.squeeze]
  | succ m ih =>
    intro s
    rw [MimcSponge.squeeze, ih]
    rw [List.range_succ_eq_map, List.map_cons, List.map_map]
    congr 1

theorem squeeze_length (cs : List Nat) (key : Nat) :
    ∀ (n : Nat) (s : Nat × Nat), (MimcSponge.squeeze cs key n s).length = n := by
  intro n
  induction n with
  | zero => intro s; rfl
  | succ m ih => intro s; simp [MimcSponge.squeeze, ih]

/-- C4: for all field elements `xL, xR, k`, `MimcSponge::hash` computes the
spec's 220-round Feistel reference: in round `i` the constant `C[i]` is added
only for `i > 0`, the branches swap for `i < 219`, and the final round
`i = 219` does not swap. -/
theorem mimc_hash_matches_feistel_ref (cs : List Nat) (xl xr k : Nat)
    (h : cs.length = 220) :
    MimcSponge.hash cs xl xr k = feistel_ref (fun i => cs.getD i 0) xl xr k := by
  unfold MimcSponge.hash feistel_ref
  rw [hash_rounds_eq_foldl k (cs.length - 1) (fun i => cs.getD i 0) cs 0 xl xr
      (by intro m hm; show cs.getD m 0 = cs.getD (0 + m) 0; rw [Nat.zero_add])]
  rw [h, List.range_eq_range']
  rfl

/-- Witness for C4: the theorem applied to a concrete 220-entry table and
concrete state. -/
theorem mimc_hash_matches_feistel_ref_witness :
    MimcSponge.hash (List.replicate 220 7) 1 2 3
      = feistel_ref (fun i => (List.replicate 220 7).getD i 0) 1 2 3 :=
  mimc_hash_matches_feistel_ref (List.replicate 220 7) 1 2 3
    (by rw [List.length_replicate])

/-- C5: for `n_out ≥ 1`, `multi_hash` is the rate-1/capacity-1 sponge of the
spec: absorb each element by adding it into the rate half and permuting, emit
the rate half, and permute once more for each further output. -/
theorem multi_hash_matches_sponge_ref (cs arr : List Nat) (key n_out : Nat)
    (h : 1 ≤ n_out) :
    MimcSponge.multi_hash cs arr key n_out = sponge_ref cs arr key n_out := by
  obtain ⟨m, rfl⟩ : ∃ m, n_out = m + 1 := ⟨n_out - 1, by omega⟩
  simp only [MimcSponge.multi_hash, sponge_ref]
  rw [squeeze_eq_iterate]
  rw [List.range_succ_eq_map, List.map_cons, List.map_map]
  congr 1

/-- Witness for C5: the theorem applied at a concrete input slice, key and
output count. -/
theorem multi_hash_matches_sponge_ref_witness :
    MimcSponge.multi_hash [] [5] 7 2 = sponge_ref [] [5] 7 2 :=
  multi_hash_matches_sponge_ref [] [5] 7 2 (by omega)

/-- C10: `multi_hash` never fails and returns `max 1 num_outputs` elements:
the absorbed rate is pushed before the squeeze loop, so `num_outputs = 0`
still yields one output. -/
theorem multi_hash_length (cs arr : List Nat) (key n : Nat) :
    (MimcSponge.multi_hash cs arr key n).length = max 1 n := by
  simp only [MimcSponge.multi_hash, List.length_cons, squeeze_length]
  omega

/-- Error type of `src/lib.rs` (`MerkleError`). -/
inductive MerkleError where
  | IndexOutOfBounds (index : Nat) (max : Nat)
  | EmptyTree
  | InvalidLeaf (msg : String)
  | HashError (msg : String)
  | InvalidProof
  | OverflowError
  | InvalidTree (msg : String)
deriving DecidableEq, Repr

/-- Side on which a sibling sits (`Position`). -/
inductive Position where
  | Left
  | Right
deriving DecidableEq, Repr

/-- A tree node: field-element hash plus signed 32-bit value (`Node`).
The hash is a canonical residue mod `fieldP`; the value is an `Int` that the
code keeps within the `i32` range. -/
structure Node where
  hash : Nat
  value : Int
deriving DecidableEq, Repr

instance : Inhabited Node := ⟨⟨0, 0⟩⟩

/-- A leaf: identifier string plus its node (`Leaf`). -/
structure Leaf where
  id : String
  node : Node
deriving DecidableEq, Repr

instance : Inhabited Leaf := ⟨⟨"", ⟨0, 0⟩⟩⟩

/-- Sibling of a proof step (`Neighbor`). -/
structure Neighbor where
  position : Position
  node : Node
deriving DecidableEq, Repr

/-- An inclusion proof: the leaf and its sibling path (`InclusionProof`). -/
structure InclusionProof where
  leaf : Leaf
  path : List Neighbor
deriving DecidableEq, Repr

/-- The tree state (`MerkleSumTree`). -/
structure MerkleSumTree where
  leafs : List Leaf
  nodes : List Node
  height : Nat
  zero_index : List Nat
deriving DecidableEq, Repr

/-- `Leaf::new(id, value)`: the node hash is the 64-bit id digest widened to
128 bits and lifted by `Fr::from_u128` (reduction mod `fieldP`); the digest
itself is the abstract `ctx.idHash` truncated to 64 bits. -/
def Leaf.new (ctx : Ctx) (id : String) (value : Int) : Leaf :=
  ⟨id, ⟨ctx.idHash id % 2 ^ 64 % fieldP, value⟩⟩

/-- `Leaf::is_none`: the zero-leaf test `id == "0" && value == 0`. -/
def Leaf.is_none (l : Leaf) : Bool :=
  l.id == "0" && l.node.value == 0

/-- `Node::is_equal`: componentwise equality. -/
def Node.is_equal (a b : Node) : Bool :=
  a.hash == b.hash && a.value == b.value

/-- Lower bound of `i32`. -/
def i32_min : Int := -2147483648

/-- Upper bound of `i32`. -/
def i32_max : Int := 2147483647

/-- `i32::checked_add` on values already in range: `some` of the exact sum
when it fits in `i32`, `none` on over- or underflow. -/
def checked_add (a b : Int) : Option Int :=
  if i32_min ≤ a + b ∧ a + b ≤ i32_max then some (a + b) else none

/-- Modelled from the spec: `Fr::from_str_vartime` applied to the base-10
rendering of an `i32` (external `ff` crate).  Per spec section 4.1 the parse
fails exactly on a non-numeral — i.e. on the leading minus of a negative
value — and otherwise yields the canonical residue mod `fieldP`. -/
def fr_from_value (v : Int) : Option Nat :=
  if v < 0 then none else some (v.toNat % fieldP)

/-- `MerkleSumTree::build_parent(child_1, child_2)` from `src/lib.rs`:
checked `i32` sum, decimal lift of both values into the field, then a
`multi_hash` of `[h1, v1, h2, v2]` with key `0` and one output. -/
def build_parent (ctx : Ctx) (child_1 child_2 : Node) : Except MerkleError Node :=
  match checked_add child_1.value child_2.value with
  | none => .error .OverflowError
  | some sum =>
    match fr_from_value child_1.value with
    | none => .error (.HashError "Failed to convert child_1 value to Fr")
    | some v1 =>
      match fr_from_value child_2.value with
      | none => .error (.HashError "Failed to convert child_2 value to Fr")
      | some v2 =>
        match MimcSponge.multi_hash ctx.cs [child_1.hash, v1, child_2.hash, v2] 0 1 with
        | [] => .error (.HashError "Hash computation returned empty result")
        | h :: _ => .ok ⟨h, sum⟩

/-- One pass of the inner `while j < nodes_to_hash.len()` loop of
`create_tree`: pair adjacent nodes with `build_parent`.  (On an odd-length
level the source would panic indexing `j + 1`; that case is unreachable
because levels always have power-of-two length, and here the trailing
element is simply dropped.) -/
def hash_level (ctx : Ctx) : List Node → Except MerkleError (List Node)
  | a :: b :: rest =>
    match build_parent ctx a b with
    | .error e => .error e
    | .ok node =>
      match hash_level ctx rest with
      | .error e => .error e
      | .ok r => .ok (node :: r)
  | _ => .ok []

/-- The outer `while nodes_to_hash.len() > 1` loop of `create_tree`,
fuel-indexed (the fuel only bounds the iteration count; `create_tree` passes
the leaf count, which always suffices since levels halve).  Returns the
concatenation of all levels above the leaves, in build order. -/
def build_levels (ctx : Ctx) : Nat → List Node → Except MerkleError (List Node)
  | 0, _ => .error (.InvalidTree "out of fuel")
  | fuel + 1, level =>
    if level.length ≤ 1 then .ok []
    else
      match hash_level ctx level with
      | .error e => .error e
      | .ok next =>
        match build_levels ctx fuel next with
        | .error e => .error e
        | .ok rest => .ok (next ++ rest)

/-- The `while power < leafs.len()` loop of `fill_leafs`, fuel-indexed.
Starting from `power = 1, height = 1` it doubles `power` and bumps `height`,
failing with `InvalidTree "Tree too large"` once `height > 64`.  The
out-of-fuel arm returns the same error; it is unreachable for fuel ≥ 64
because the height check fires within 64 iterations. -/
def grow_loop (len : Nat) : Nat → Nat → Nat → Except MerkleError (Nat × Nat)
  | 0, _, _ => .error (.InvalidTree "Tree too large")
  | fuel + 1, power, height =>
    if power < len then
      let power2 := power * 2
      let height2 := height + 1
      if 64 < height2 then .error (.InvalidTree "Tree too large")
      else grow_loop len fuel power2 height2
    else .ok (power, height)

/-- `MerkleSumTree::fill_leafs` from `src/lib.rs`: pad the leaf vector with
zero-leaves up to the next power of two, recording the padded indices. -/
def fill_leafs (ctx : Ctx) (leafs : List Leaf) :
    Except MerkleError (List Leaf × Nat × List Nat) :=
  if leafs.isEmpty then .error (.InvalidLeaf "Cannot process empty leaf vector")
  else
    match grow_loop leafs.length 64 1 1 with
    | .error e => .error e
    | .ok (power, height) =>
      let fill_count := power - leafs.length
      let zero_index := (List.range fill_count).map (fun i => leafs.length + i)
      let filled := leafs ++ List.replicate fill_count (Leaf.new ctx "0" 0)
      .ok (filled, height, zero_index)

/-- `MerkleSumTree::create_tree` from `src/lib.rs`: pad, scan the padded
leaves appending every zero-leaf index to `zero_index`, then build the node
levels bottom-up. -/
def create_tree (ctx : Ctx) (leafs0 : List Leaf) : Except MerkleError MerkleSumTree :=
  if leafs0.isEmpty then .error (.InvalidTree "Cannot create tree with no leaves")
  else
    match fill_leafs ctx leafs0 with
    | .error e => .error e
    | .ok (leafs, height, zi) =>
      let zero_index := zi ++ (leafs.enum.filter (fun p => p.2.is_none)).map (fun p => p.1)
      let leaf_nodes := leafs.map Leaf.node
      match build_levels ctx leafs.length leaf_nodes with
      | .error e => .error e
      | .ok upper => .ok ⟨leafs, leaf_nodes ++ upper, height, zero_index⟩

/-- `MerkleSumTree::new`. -/
def MerkleSumTree.new (ctx : Ctx) (leafs : List Leaf) :
    Except MerkleError MerkleSumTree :=
  create_tree ctx leafs

/-- `MerkleSumTree::get_node` (bounds-checked node access), on a raw node
list so the path-update loop can use it while the array is being rewritten. -/
def get_node_l (nodes : List Node) (index : Nat) : Except MerkleError Node :=
  if nodes.length ≤ index then
    .error (.IndexOutOfBounds index (nodes.length - 1))
  else .ok (nodes.getD index default)

/-- `MerkleSumTree::get_node` on the tree. -/
def MerkleSumTree.get_node (t : MerkleSumTree) (index : Nat) :
    Except MerkleError Node :=
  get_node_l t.nodes index

/-- `MerkleSumTree::get_leaf`. -/
def MerkleSumTree.get_leaf (t : MerkleSumTree) (index : Nat) :
    Except MerkleError Leaf :=
  if t.leafs.length ≤ index then
    .error (.IndexOutOfBounds index (t.leafs.length - 1))
  else .ok (t.leafs.getD index default)

/-- `MerkleSumTree::get_root`: last entry of `nodes`, `EmptyTree` when there
are none. -/
def MerkleSumTree.get_root (t : MerkleSumTree) : Except MerkleError Node :=
  match t.nodes.length with
  | 0 => .error .EmptyTree
  | n => get_node_l t.nodes (n - 1)

/-- The `for _ in 1..height` loop of `get_proof`: collect the sibling at
`current_index ± 1` (Right when the flat index is even, Left when odd), then
ascend one level. -/
def get_proof_loop (nodes : List Node) :
    Nat → Nat → Nat → Nat → Nat → Except MerkleError (List Neighbor)
  | 0, _, _, _, _ => .ok []
  | steps + 1, level_size, level_index, current_index, level_start =>
    match (if current_index % 2 = 0
           then (get_node_l nodes (current_index + 1)).map
                  (fun n => Neighbor.mk .Right n)
           else (get_node_l nodes (current_index - 1)).map
                  (fun n => Neighbor.mk .Left n)) with
    | .error e => .error e
    | .ok nb =>
      match get_proof_loop nodes steps (level_size / 2) (level_index / 2)
              ((level_start + level_size) + level_index / 2)
              (level_start + level_size) with
      | .error e => .error e
      | .ok rest => .ok (nb :: rest)

/-- `MerkleSumTree::get_proof(index)` from `src/lib.rs`.  The initial level
size `1 << (height - 1)` is written `2 ^ (height - 1)`. -/
def MerkleSumTree.get_proof (t : MerkleSumTree) (index : Nat) :
    Except MerkleError InclusionProof :=
  if t.leafs.length ≤ index then
    .error (.IndexOutOfBounds index (t.leafs.length - 1))
  else
    match t.get_leaf index with
    | .error e => .error e
    | .ok leaf =>
      match get_proof_loop t.nodes (t.height - 1) (2 ^ (t.height - 1))
              index index 0 with
      | .error e => .error e
      | .ok path => .ok ⟨leaf, path⟩

/-- The folding loop of `verify_proof`: rebuild the path bottom-up with
`build_parent`, the sibling on the side its `Position` names. -/
def verify_fold (ctx : Ctx) (node : Node) : List Neighbor → Except MerkleError Node
  | [] => .ok node
  | nb :: rest =>
    match (match nb.position with
           | .Right => build_parent ctx node nb.node
           | .Left => build_parent ctx nb.node node) with
    | .error e => .error e
    | .ok node2 => verify_fold ctx node2 rest

/-- `MerkleSumTree::verify_proof(proof)` from `src/lib.rs`. -/
def MerkleSumTree.verify_proof (ctx : Ctx) (t : MerkleSumTree)
    (proof : InclusionProof) : Except MerkleError Bool :=
  match verify_fold ctx proof.leaf.node proof.path with
  | .error e => .error e
  | .ok node =>
    match t.get_root with
    | .error e => .error e
    | .ok root => .ok (node.is_equal root)

/-- Rust `slice::binary_search` as used on `zero_index`, fuel-indexed (the
interval shrinks every iteration, so `len + 1` fuel always suffices):
`Ok(mid)` when found, `Err(left)` with the insertion point otherwise. -/
def binary_search_loop (xs : List Nat) (target : Nat) :
    Nat → Nat → Nat → Except Nat Nat
  | 0, left, _ => .error left
  | fuel + 1, left, right =>
    if left < right then
      let mid := left + (right - left) / 2
      let v := xs.getD mid 0
      if v < target then binary_search_loop xs target fuel (mid + 1) right
      else if target < v then binary_search_loop xs target fuel left mid
      else .ok mid
    else .error left

/-- `zero_index.binary_search(&index)`. -/
def binary_search (xs : List Nat) (target : Nat) : Except Nat Nat :=
  binary_search_loop xs target (xs.length + 1) 0 xs.length

/-- `binary_search(..).unwrap_or_else(|e| e)` followed by `insert(pos, i)`. -/
def insert_sorted (xs : List Nat) (index : Nat) : List Nat :=
  let pos := match binary_search xs index with
             | .ok p => p
             | .error p => p
  xs.insertIdx pos index

/-- `if let Ok(pos) = binary_search(..) { remove(pos) }`. -/
def remove_found (xs : List Nat) (index : Nat) : List Nat :=
  match binary_search xs index with
  | .ok p => xs.eraseIdx p
  | .error _ => xs

/-- The `for _ in 1..height` loop of `update_path`: rebuild the parent of the
current node and its sibling, ascend, and store it at the new flat index.
The node array is threaded explicitly; on a `get_node`/`build_parent` error
the loop stops, returning the array as mutated so far — exactly the state
the Rust `?` operator leaves behind.  (The store `self.nodes[i] = n` would
panic out of bounds in Rust; `List.set` is a no-op there, and the case is
unreachable on well-formed trees.) -/
def update_path_loop (ctx : Ctx) :
    Nat → List Node → Node → Nat → Nat → Nat → Nat →
    List Node × Option MerkleError
  | 0, nodes, _, _, _, _, _ => (nodes, none)
  | steps + 1, nodes, current_node, level_size, level_index, current_index,
      level_start =>
    match (if current_index % 2 = 0
           then (get_node_l nodes (current_index + 1)).bind
                  (fun nb => build_parent ctx current_node nb)
           else (get_node_l nodes (current_index - 1)).bind
                  (fun nb => build_parent ctx nb current_node)) with
    | .error e => (nodes, some e)
    | .ok node2 =>
      update_path_loop ctx steps
        (nodes.set ((level_start + level_size) + level_index / 2) node2)
        node2 (level_size / 2) (level_index / 2)
        ((level_start + level_size) + level_index / 2)
        (level_start + level_size)

/-- `MerkleSumTree::set_leaf(leaf, index)` from `src/lib.rs`.  The returned
tree is the post-call state: on an `update_path` failure the leaf, its
level-0 node and `zero_index` have already been overwritten, as in the
source. -/
def set_leaf (ctx : Ctx) (t : MerkleSumTree) (leaf : Leaf) (index : Nat) :
    MerkleSumTree × Except MerkleError Unit :=
  if t.leafs.length ≤ index then
    (t, .error (.IndexOutOfBounds index (t.leafs.length - 1)))
  else
    let current_leaf := t.leafs.getD index default
    let zero_index :=
      if leaf.is_none && !current_leaf.is_none then
        insert_sorted t.zero_index index
      else if !leaf.is_none && current_leaf.is_none then
        remove_found t.zero_index index
      else t.zero_index
    let leafs := t.leafs.set index leaf
    let nodes := t.nodes.set index leaf.node
    match update_path_loop ctx (t.height - 1) nodes leaf.node
            (2 ^ (t.height - 1)) index index 0 with
    | (nodes2, none) => (⟨leafs, nodes2, t.height, zero_index⟩, .ok ())
    | (nodes2, some e) => (⟨leafs, nodes2, t.height, zero_index⟩, .error e)

/-- `MerkleSumTree::remove(index)` from `src/lib.rs`: bounds check, then
`set_leaf` with a fresh zero-leaf. -/
def remove (ctx : Ctx) (t : MerkleSumTree) (index : Nat) :
    MerkleSumTree × Except MerkleError Unit :=
  if t.leafs.length ≤ index then
    (t, .error (.IndexOutOfBounds index (t.leafs.length - 1)))
  else set_leaf ctx t (Leaf.new ctx "0" 0) index

/-- `MerkleSumTree::push(leaf)` from `src/lib.rs`.  With no free zero slot
the leaf is appended (`index_value` is read before the push, i.e. the
pre-push length) and the whole tree rebuilt; on a rebuild error the appended
`leafs` remain, as in the source.  Otherwise the first zero slot is reused
via `set_leaf`. -/
def push (ctx : Ctx) (t : MerkleSumTree) (leaf : Leaf) :
    MerkleSumTree × Except MerkleError Nat :=
  match t.zero_index with
  | [] =>
    let index_value := t.leafs.length
    let leafs2 := t.leafs ++ [leaf]
    match create_tree ctx leafs2 with
    | .error e => ({ t with leafs := leafs2 }, .error e)
    | .ok nt => (nt, .ok index_value)
  | index_value :: _ =>
    match set_leaf ctx t leaf index_value with
    | (t2, .ok _) => (t2, .ok index_value)
    | (t2, .error e) => (t2, .error e)

/-- The reachable tree states: built by `new` and transformed by successful
mutations only. -/
inductive Reachable (ctx : Ctx) : MerkleSumTree → Prop where
  | new_ok (leafs : List Leaf) (t : MerkleSumTree) :
      create_tree ctx leafs = .ok t → Reachable ctx t
  | push_ok (t : MerkleSumTree) (leaf : Leaf) (t2 : MerkleSumTree) (i : Nat) :
      Reachable ctx t → push ctx t leaf = (t2, .ok i) → Reachable ctx t2
  | set_leaf_ok (t : MerkleSumTree) (leaf : Leaf) (i : Nat) (t2 : MerkleSumTree) :
      Reachable ctx t → set_leaf ctx t leaf i = (t2, .ok ()) → Reachable ctx t2
  | remove_ok (t : MerkleSumTree) (i : Nat) (t2 : MerkleSumTree) :
      Reachable ctx t → remove ctx t i = (t2, .ok ()) → Reachable ctx t2

theorem multi_hash_cons (cs arr : List Nat) (key n : Nat) :
    MimcSponge.multi_hash cs arr key n =
      (arr.foldl (fun (s : Nat × Nat) elem =>
          MimcSponge.hash cs (fadd s.1 elem) s.2 key) (0, 0)).1 ::
        MimcSponge.squeeze cs key (n - 1)
          (arr.foldl (fun (s : Nat × Nat) elem =>
            MimcSponge.hash cs (fadd s.1 elem) s.2 key) (0, 0)) := rfl

/-- Concrete context for witnesses: an empty constants table (the permutation
is then the identity, so parent hashes are plain field sums) and a constantly
zero id digest.  Nothing in the tree layer depends on the table contents. -/
def ctx0 : Ctx := ⟨[], fun _ => 0⟩

/-- The tree built from leaves `("a", 1), ("b", 2)` under `ctx0`. -/
def T2 : MerkleSumTree :=
  ⟨[Leaf.new ctx0 "a" 1, Leaf.new ctx0 "b" 2],
   [⟨0, 1⟩, ⟨0, 2⟩, ⟨3, 3⟩], 2, []⟩

/-- The tree built from leaves `("a", 1), ("b", 2), ("c", 3)` under `ctx0`:
one zero-leaf of padding, and — as the C2 analysis shows — a duplicated
`zero_index`. -/
def T3 : MerkleSumTree :=
  ⟨[Leaf.new ctx0 "a" 1, Leaf.new ctx0 "b" 2, Leaf.new ctx0 "c" 3,
    Leaf.new ctx0 "0" 0],
   [⟨0, 1⟩, ⟨0, 2⟩, ⟨0, 3⟩, ⟨0, 0⟩, ⟨3, 3⟩, ⟨3, 3⟩, ⟨12, 6⟩], 3, [3, 3]⟩

/-- The tree built from leaves `("a", i32::MAX), ("b", 0)` under `ctx0`. -/
def T2max : MerkleSumTree :=
  ⟨[Leaf.new ctx0 "a" 2147483647, Leaf.new ctx0 "b" 0],
   [⟨0, 2147483647⟩, ⟨0, 0⟩, ⟨2147483647, 2147483647⟩], 2, []⟩

/-- C2: the claimed `zero_index` invariant fails on the code.  `fill_leafs`
records the padded index 3, and the scan in `create_tree` appends it again
(the padding leaf is a zero-leaf), so `new` on three non-zero leaves yields
`zero_index = [3, 3]` — duplicated, not the set of zero-slot indices. -/
theorem zero_index_duplicated_after_new :
    create_tree ctx0
        [Leaf.new ctx0 "a" 1, Leaf.new ctx0 "b" 2, Leaf.new ctx0 "c" 3]
      = .ok T3 ∧
    T3.zero_index = [3, 3] ∧ ¬ T3.zero_index.Nodup := by
  refine ⟨rfl, rfl, ?_⟩
  decide

/-- C3 counterexample: `set_leaf` is not atomic on error.  On the tree built
from `("a", i32::MAX), ("b", 0)`, setting leaf 1 to `("c", 1)` makes
`update_path` overflow, yet the call has already overwritten `leafs[1]`. -/
theorem set_leaf_not_atomic_on_error :
    create_tree ctx0 [Leaf.new ctx0 "a" 2147483647, Leaf.new ctx0 "b" 0]
      = .ok T2max ∧
    (set_leaf ctx0 T2max (Leaf.new ctx0 "c" 1) 1).2 = .error .OverflowError ∧
    (set_leaf ctx0 T2max (Leaf.new ctx0 "c" 1) 1).1.leafs ≠ T2max.leafs := by
  refine ⟨rfl, rfl, ?_⟩
  decide

/-- C3 (amended): only the bounds check is atomic — `set_leaf` and `remove`
given an out-of-range index return `IndexOutOfBounds` with the tree exactly
unchanged; a failure inside `update_path` (overflow or hash error) can leave
the tree partially mutated, as the counterexample shows. -/
theorem mutation_bounds_error_atomic (ctx : Ctx) (t : MerkleSumTree)
    (leaf : Leaf) (i : Nat) (h : t.leafs.length ≤ i) :
    set_leaf ctx t leaf i = (t, .error (.IndexOutOfBounds i (t.leafs.length - 1))) ∧
    remove ctx t i = (t, .error (.IndexOutOfBounds i (t.leafs.length - 1))) := by
  constructor
  · simp [set_leaf, h]
  · simp [remove, h]

/-- Witness for the amended C3 at a concrete tree and index. -/
theorem mutation_bounds_error_atomic_witness :
    set_leaf ctx0 T2 (Leaf.new ctx0 "c" 1) 5
        = (T2, .error (.IndexOutOfBounds 5 (T2.leafs.length - 1))) ∧
    remove ctx0 T2 5 = (T2, .error (.IndexOutOfBounds 5 (T2.leafs.length - 1))) :=
  mutation_bounds_error_atomic ctx0 T2 (Leaf.new ctx0 "c" 1) 5 (by decide)

/-- Characterization of `build_parent` on an in-range sum of non-negative
values: it succeeds, the value is the exact sum, and the hash is the first
sponge output. -/
theorem build_parent_ok_of_nonneg (ctx : Ctx) (a b : Node)
    (hsum : i32_min ≤ a.value + b.value ∧ a.value + b.value ≤ i32_max)
    (hpa : 0 ≤ a.value) (hpb : 0 ≤ b.value) :
    build_parent ctx a b = .ok
      ⟨(MimcSponge.multi_hash ctx.cs
          [a.hash, a.value.toNat % fieldP, b.hash, b.value.toNat % fieldP] 0 1).headD 0,
        a.value + b.value⟩ := by
  rw [build_parent]
  rw [show checked_add a.value b.value = some (a.value + b.value) from by
        rw [checked_add, if_pos hsum]]
  rw [show fr_from_value a.value = some (a.value.toNat % fieldP) from by
        rw [fr_from_value, if_neg (by omega)]]
  rw [show fr_from_value b.value = some (b.value.toNat % fieldP) from by
        rw [fr_from_value, if_neg (by omega)]]
  rfl

/-- Characterization of `build_parent` on an overflowing sum. -/
theorem build_parent_overflow (ctx : Ctx) (a b : Node)
    (hno : ¬ (i32_min ≤ a.value + b.value ∧ a.value + b.value ≤ i32_max)) :
    build_parent ctx a b = .error .OverflowError := by
  rw [build_parent]
  rw [show checked_add a.value b.value = none from by rw [checked_add, if_neg hno]]

/-- Characterization of `build_parent` on a negative left value. -/
theorem build_parent_neg_left (ctx : Ctx) (a b : Node)
    (hsum : i32_min ≤ a.value + b.value ∧ a.value + b.value ≤ i32_max)
    (hna : a.value < 0) :
    build_parent ctx a b
      = .error (.HashError "Failed to convert child_1 value to Fr") := by
  rw [build_parent]
  rw [show checked_add a.value b.value = some (a.value + b.value) from by
        rw [checked_add, if_pos hsum]]
  rw [show fr_from_value a.value = none from by rw [fr_from_value, if_pos hna]]

/-- Characterization of `build_parent` on a negative right value. -/
theorem build_parent_neg_right (ctx : Ctx) (a b : Node)
    (hsum : i32_min ≤ a.value + b.value ∧ a.value + b.value ≤ i32_max)
    (hpa : 0 ≤ a.value) (hnb : b.value < 0) :
    build_parent ctx a b
      = .error (.HashError "Failed to convert child_2 value to Fr") := by
  rw [build_parent]
  rw [show checked_add a.value b.value = some (a.value + b.value) from by
        rw [checked_add, if_pos hsum]]
  rw [show fr_from_value a.value = some (a.value.toNat % fieldP) from by
        rw [fr_from_value, if_neg (by omega)]]
  rw [show fr_from_value b.value = none from by rw [fr_from_value, if_pos hnb]]

/-- C7: `build_parent` fails with `OverflowError` exactly when the `i32` sum
of the values over- or underflows, and in particular on `i32::MAX + 1`. -/
theorem build_parent_overflow_iff (ctx : Ctx) (a b : Node) :
    (build_parent ctx a b = .error .OverflowError ↔
      ¬ (i32_min ≤ a.value + b.value ∧ a.value + b.value ≤ i32_max)) ∧
    build_parent ctx ⟨a.hash, i32_max⟩ ⟨b.hash, 1⟩ = .error .OverflowError := by
  refine ⟨⟨?_, ?_⟩, ?_⟩
  · intro he
    by_contra hno
    by_cases hna : a.value < 0
    · rw [build_parent_neg_left ctx a b hno hna] at he
      exact absurd he (by simp)
    · by_cases hnb : b.value < 0
      · rw [build_parent_neg_right ctx a b hno (by omega) hnb] at he
        exact absurd he (by simp)
      · rw [build_parent_ok_of_nonneg ctx a b hno (by omega) (by omega)] at he
        exact absurd he (by simp)
  · intro hno
    exact build_parent_overflow ctx a b hno
  · refine build_parent_overflow ctx _ _ ?_
    show ¬ (i32_min ≤ i32_max + 1 ∧ i32_max + 1 ≤ i32_max)
    rw [i32_min, i32_max]
    omega

/-- C8: when the `i32` sum does not overflow, `build_parent` returns a
`HashError` iff one of the values is negative (the decimal string-lift into
the field rejects a minus sign), and succeeds when both are non-negative. -/
theorem build_parent_negative_value (ctx : Ctx) (a b : Node)
    (hsum : i32_min ≤ a.value + b.value ∧ a.value + b.value ≤ i32_max) :
    ((∃ msg, build_parent ctx a b = .error (.HashError msg)) ↔
      (a.value < 0 ∨ b.value < 0)) ∧
    (0 ≤ a.value → 0 ≤ b.value → ∃ n, build_parent ctx a b = .ok n) := by
  constructor
  · constructor
    · intro ⟨msg, hmsg⟩
      by_contra hneg
      push_neg at hneg
      rw [build_parent_ok_of_nonneg ctx a b hsum hneg.1 hneg.2] at hmsg
      exact absurd hmsg (by simp)
    · intro h
      by_cases hna : a.value < 0
      · exact ⟨_, build_parent_neg_left ctx a b hsum hna⟩
      · have hnb : b.value < 0 := by
          rcases h with h | h
          · exact absurd h hna
          · exact h
        exact ⟨_, build_parent_neg_right ctx a b hsum (by omega) hnb⟩
  · intro hpa hpb
    exact ⟨_, build_parent_ok_of_nonneg ctx a b hsum hpa hpb⟩

/-- Witness for C8: the theorem applied to nodes with a negative left value
and an in-range sum. -/
theorem build_parent_negative_value_witness :
    ((∃ msg, build_parent ctx0 ⟨0, -1⟩ ⟨0, 0⟩ = .error (.HashError msg)) ↔
      ((-1 : Int) < 0 ∨ (0 : Int) < 0)) ∧
    (0 ≤ (-1 : Int) → 0 ≤ (0 : Int) →
      ∃ n, build_parent ctx0 ⟨0, -1⟩ ⟨0, 0⟩ = .ok n) :=
  build_parent_negative_value ctx0 ⟨0, -1⟩ ⟨0, 0⟩ (by constructor <;> decide)

/-- C9: `push` on a tree whose `zero_index` is empty appends the leaf,
rebuilds the whole tree, and returns the pre-push length of `leafs` — the
position at which the new leaf was stored. -/
theorem push_full_returns_prepush_length (ctx : Ctx) (t t2 : MerkleSumTree)
    (leaf : Leaf) (i : Nat) (hz : t.zero_index = [])
    (hp : push ctx t leaf = (t2, .ok i)) :
    i = t.leafs.length ∧ create_tree ctx (t.leafs ++ [leaf]) = .ok t2 := by
  unfold push at hp
  rw [hz] at hp
  dsimp only at hp
  cases hc : create_tree ctx (t.leafs ++ [leaf]) with
  | error e =>
    rw [hc] at hp
    exact absurd (congrArg Prod.snd hp) (by simp)
  | ok nt =>
    rw [hc] at hp
    have h2 : nt = t2 := congrArg Prod.fst hp
    have h3 : (Except.ok t.leafs.length : Except MerkleError Nat) = .ok i :=
      congrArg Prod.snd hp
    have h4 : t.leafs.length = i := by injection h3
    exact ⟨h4.symm, by rw [← h2]⟩

/-- Witness for C9: pushing `("c", 3)` onto the full two-leaf tree `T2`
returns index 2 (the pre-push length) and rebuilds into `T3`. -/
theorem push_full_returns_prepush_length_witness :
    2 = T2.leafs.length ∧
    create_tree ctx0 (T2.leafs ++ [Leaf.new ctx0 "c" 3]) = .ok T3 :=
  push_full_returns_prepush_length ctx0 T2 T3 (Leaf.new ctx0 "c" 3) 2 rfl rfl

theorem getD_append_add {α : Type} (xs ys : List α) (n : Nat) (d : α) :
    (xs ++ ys).getD (xs.length + n) d = ys.getD n d := by
  induction xs with
  | nil => simp
  | cons a xs ih =>
    have h1 : (a :: xs).length + n = (xs.length + n) + 1 := by
      simp only [List.length_cons]; omega
    rw [h1, List.cons_append, List.getD_cons_succ, ih]

theorem getD_append_lt {α : Type} (xs ys : List α) (n : Nat) (d : α)
    (h : n < xs.length) : (xs ++ ys).getD n d = xs.getD n d := by
  induction xs generalizing n with
  | nil => simp at h
  | cons a xs ih =>
    cases n with
    | zero => rfl
    | succ m =>
      rw [List.cons_append, List.getD_cons_succ, List.getD_cons_succ]
      exact ih m (by simpa using h)

theorem set_append_add {α : Type} (xs ys : List α) (n : Nat) (v : α) :
    (xs ++ ys).set (xs.length + n) v = xs ++ ys.set n v := by
  induction xs with
  | nil => simp
  | cons a xs ih =>
    have h1 : (a :: xs).length + n = (xs.length + n) + 1 := by
      simp only [List.length_cons]; omega
    rw [h1, List.cons_append]
    show a :: (xs ++ ys).set (xs.length + n) v = a :: (xs ++ ys.set n v)
    rw [ih]

theorem set_append_lt {α : Type} (xs ys : List α) (n : Nat) (v : α)
    (h : n < xs.length) : (xs ++ ys).set n v = xs.set n v ++ ys := by
  induction xs generalizing n with
  | nil => simp at h
  | cons a xs ih =>
    cases n with
    | zero => rfl
    | succ m =>
      show a :: (xs ++ ys).set m v = a :: (xs.set m v ++ ys)
      rw [ih m (by simpa using h)]

theorem getD_set_self {α : Type} (l : List α) (n : Nat) (v d : α)
    (h : n < l.length) : (l.set n v).getD n d = v := by
  induction l generalizing n with
  | nil => simp at h
  | cons a l ih =>
    cases n with
    | zero => rfl
    | succ m =>
      show (l.set m v).getD m d = v
      exact ih m (by simpa using h)

theorem getD_set_ne {α : Type} (l : List α) (n m : Nat) (v d : α)
    (h : m ≠ n) : (l.set n v).getD m d = l.getD m d := by
  induction l generalizing n m with
  | nil => rfl
  | cons a l ih =>
    cases n with
    | zero =>
      cases m with
      | zero => exact absurd rfl h
      | succ j => rfl
    | succ n2 =>
      cases m with
      | zero => rfl
      | succ j =>
        show (l.set n2 v).getD j d = l.getD j d
        exact ih n2 j (by omega)

theorem getD_map_node (leafs : List Leaf) (i : Nat) (h : i < leafs.length) :
    (leafs.map Leaf.node).getD i default = (leafs.getD i default).node := by
  induction leafs generalizing i with
  | nil => simp at h
  | cons a l ih =>
    cases i with
    | zero => rfl
    | succ m =>
      show (l.map Leaf.node).getD m default = (l.getD m default).node
      exact ih m (by simpa using h)

theorem map_node_set (l : List Leaf) (n : Nat) (a : Leaf) :
    (l.set n a).map Leaf.node = (l.map Leaf.node).set n a.node := by
  induction l generalizing n with
  | nil => rfl
  | cons x l ih =>
    cases n with
    | zero => rfl
    | succ m =>
      show x.node :: (l.set m a).map Leaf.node
          = x.node :: (l.map Leaf.node).set m a.node
      rw [ih]

/-- Two adjacent node levels are `Paired` when the upper one has half the
length and every entry is the successful `build_parent` of its two children
in the lower one. -/
def Paired (ctx : Ctx) (l next : List Node) : Prop :=
  l.length = 2 * next.length ∧
  ∀ m, m < next.length →
    build_parent ctx (l.getD (2 * m) default) (l.getD (2 * m + 1) default)
      = .ok (next.getD m default)

/-- A list of levels, leaves first, each `Paired` with the next, ending in a
singleton root level — the shape `create_tree` builds and the mutations
maintain. -/
inductive Chained (ctx : Ctx) : List (List Node) → Prop where
  | single (l : List Node) : l.length = 1 → Chained ctx [l]
  | cons (l next : List Node) (rest : List (List Node)) :
      Paired ctx l next → Chained ctx (next :: rest) →
      Chained ctx (l :: next :: rest)

/-- The root of a level list: head of the last level. -/
def chainedRoot : List (List Node) → Node
  | [] => default
  | [l] => l.headD default
  | _ :: rest => chainedRoot rest

/-- A tree is well formed when its flat `nodes` array is the concatenation of
a `Chained` level list whose bottom level is the leaf nodes and whose length
is the height. -/
def GoodTree (ctx : Ctx) (t : MerkleSumTree) : Prop :=
  ∃ rest, Chained ctx (t.leafs.map Leaf.node :: rest) ∧
    rest.length + 1 = t.height ∧
    t.nodes = (t.leafs.map Leaf.node :: rest).flatten

theorem build_parent_value (ctx : Ctx) (a b n : Node)
    (h : build_parent ctx a b = .ok n) : n.value = a.value + b.value := by
  rw [build_parent] at h
  cases hc : checked_add a.value b.value with
  | none => rw [hc] at h; exact absurd h (by simp)
  | some sum =>
    rw [hc] at h
    dsimp only at h
    have hsum : sum = a.value + b.value := by
      rw [checked_add] at hc
      by_cases hin : i32_min ≤ a.value + b.value ∧ a.value + b.value ≤ i32_max
      · rw [if_pos hin] at hc; injection hc with h1; omega
      · rw [if_neg hin] at hc; exact absurd hc (by simp)
    cases h1 : fr_from_value a.value with
    | none => rw [h1] at h; exact absurd h (by simp)
    | some v1 =>
      rw [h1] at h
      dsimp only at h
      cases h2 : fr_from_value b.value with
      | none => rw [h2] at h; exact absurd h (by simp)
      | some v2 =>
        rw [h2] at h
        dsimp only at h
        rw [multi_hash_cons] at h
        injection h with h3
        rw [← h3]
        show sum = a.value + b.value
        exact hsum

theorem hash_level_length (ctx : Ctx) :
    ∀ (l next : List Node), hash_level ctx l = .ok next →
      l.length = 2 * next.length ∨ l.length = 2 * next.length + 1
  | [] => by
    intro next h
    simp only [hash_level] at h
    injection h with h1
    rw [← h1]
    left; rfl
  | [a] => by
    intro next h
    simp only [hash_level] at h
    injection h with h1
    rw [← h1]
    right; rfl
  | a :: b :: rest => by
    intro next h
    simp only [hash_level] at h
    cases hb : build_parent ctx a b with
    | error e => rw [hb] at h; exact absurd h (by simp)
    | ok p =>
      rw [hb] at h
      dsimp only at h
      cases hr : hash_level ctx rest with
      | error e => rw [hr] at h; exact absurd h (by simp)
      | ok r =>
        rw [hr] at h
        dsimp only at h
        injection h with h1
        rcases hash_level_length ctx rest r hr with h2 | h2
        · left; rw [← h1]; simp only [List.length_cons]; omega
        · right; rw [← h1]; simp only [List.length_cons]; omega

theorem hash_level_paired (ctx : Ctx) :
    ∀ (l next : List Node), hash_level ctx l = .ok next →
      ∀ m, m < next.length →
        build_parent ctx (l.getD (2 * m) default) (l.getD (2 * m + 1) default)
          = .ok (next.getD m default)
  | [] => by
    intro next h m hm
    simp only [hash_level] at h
    injection h with h1
    rw [← h1] at hm
    simp at hm
  | [a] => by
    intro next h m hm
    simp only [hash_level] at h
    injection h with h1
    rw [← h1] at hm
    simp at hm
  | a :: b :: rest => by
    intro next h m hm
    simp only [hash_level] at h
    cases hb : build_parent ctx a b with
    | error e => rw [hb] at h; exact absurd h (by simp)
    | ok p =>
      rw [hb] at h
      dsimp only at h
      cases hr : hash_level ctx rest with
      | error e => rw [hr] at h; exact absurd h (by simp)
      | ok r =>
        rw [hr] at h
        dsimp only at h
        injection h with h1
        subst h1
        cases m with
        | zero => exact hb
        | succ m2 =>
          have h2 : 2 * (m2 + 1) = (2 * m2 + 1) + 1 := by omega
          rw [h2]
          simp only [List.getD_cons_succ]
          exact hash_level_paired ctx rest r hr m2 (by simpa using hm)

theorem two_pow_split (k : Nat) (hk : 1 ≤ k) : 2 ^ k = 2 * 2 ^ (k - 1) := by
  conv_lhs => rw [show k = (k - 1) + 1 from by omega]
  rw [pow_succ]
  omega

theorem build_levels_chained (ctx : Ctx) :
    ∀ (fuel : Nat) (k : Nat) (l ns : List Node),
      l.length = 2 ^ k → 2 ^ k ≤ fuel →
      build_levels ctx fuel l = .ok ns →
      ∃ Ls, Chained ctx (l :: Ls) ∧ Ls.length = k ∧ ns = Ls.flatten := by
  intro fuel
  induction fuel with
  | zero =>
    intro k l ns hlen hfuel hb
    have := pow_pos (show 0 < 2 from by omega) k
    omega
  | succ fuel ih =>
    intro k l ns hlen hfuel hb
    rw [build_levels] at hb
    by_cases hsmall : l.length ≤ 1
    · rw [if_pos hsmall] at hb
      injection hb with h1
      have hk : k = 0 := by
        by_contra hk0
        have h2 : 2 ^ 1 ≤ 2 ^ k := Nat.pow_le_pow_right (by omega) (by omega)
        have h3 : 2 ^ 1 = 2 := rfl
        omega
      refine ⟨[], Chained.single l ?_, by rw [hk]; rfl, by rw [← h1]; rfl⟩
      rw [hlen, hk]
      rfl
    · rw [if_neg hsmall] at hb
      cases hl : hash_level ctx l with
      | error e => rw [hl] at hb; exact absurd hb (by simp)
      | ok next =>
        rw [hl] at hb
        dsimp only at hb
        cases hb2 : build_levels ctx fuel next with
        | error e => rw [hb2] at hb; exact absurd hb (by simp)
        | ok rest =>
          rw [hb2] at hb
          dsimp only at hb
          injection hb with h1
          have hk1 : 1 ≤ k := by
            by_contra hk0
            have hk : k = 0 := by omega
            rw [hk] at hlen
            simp at hlen
            omega
          have hsplit : 2 ^ k = 2 * 2 ^ (k - 1) := two_pow_split k hk1
          have hlnext : l.length = 2 * next.length := by
            rcases hash_level_length ctx l next hl with h2 | h2
            · exact h2
            · omega
          have hnext : next.length = 2 ^ (k - 1) := by
            have h4 : 2 * next.length = 2 * 2 ^ (k - 1) := by
              rw [← hlnext, hlen, hsplit]
            exact Nat.eq_of_mul_eq_mul_left (by omega) h4
          have hpos : 1 ≤ 2 ^ (k - 1) := Nat.one_le_two_pow
          have hposn : 1 ≤ next.length := by rw [hnext]; exact hpos
          have hfuel2 : 2 ^ (k - 1) ≤ fuel := by
            rw [← hnext]
            have h5 : 2 * next.length ≤ fuel + 1 := by
              calc 2 * next.length = l.length := hlnext.symm
                _ = 2 ^ k := hlen
                _ ≤ fuel + 1 := hfuel
            omega
          obtain ⟨Ls, hch, hlsl, hjoin⟩ :=
            ih (k - 1) next rest hnext hfuel2 hb2
          refine ⟨next :: Ls, ?_, ?_, ?_⟩
          · exact Chained.cons l next Ls
              ⟨hlnext, hash_level_paired ctx l next hl⟩ hch
          · simp only [List.length_cons]; omega
          · rw [← h1, hjoin]; rfl

theorem grow_loop_ok (len : Nat) :
    ∀ (fuel power height p h : Nat),
      power = 2 ^ (height - 1) → 1 ≤ height →
      grow_loop len fuel power height = .ok (p, h) →
      1 ≤ h ∧ p = 2 ^ (h - 1) ∧ len ≤ p := by
  intro fuel
  induction fuel with
  | zero =>
    intro power height p h _ _ hg
    rw [grow_loop] at hg
    exact absurd hg (by simp)
  | succ fuel ih =>
    intro power height p h hpow hh hg
    rw [grow_loop] at hg
    by_cases hlt : power < len
    · rw [if_pos hlt] at hg
      dsimp only at hg
      by_cases h64 : 64 < height + 1
      · rw [if_pos h64] at hg; exact absurd hg (by simp)
      · rw [if_neg h64] at hg
        refine ih (power * 2) (height + 1) p h ?_ (by omega) hg
        rw [hpow, show height + 1 - 1 = (height - 1) + 1 from by omega, pow_succ]
    · rw [if_neg hlt] at hg
      injection hg with h1
      have hp : power = p := congrArg Prod.fst h1
      have hh2 : height = h := congrArg Prod.snd h1
      refine ⟨by omega, by rw [← hp, ← hh2]; exact hpow, by omega⟩

theorem fill_leafs_ok (ctx : Ctx) (leafs0 filled : List Leaf) (height : Nat)
    (zi : List Nat) (h : fill_leafs ctx leafs0 = .ok (filled, height, zi)) :
    filled.length = 2 ^ (height - 1) ∧ 1 ≤ height := by
  rw [fill_leafs] at h
  by_cases he : leafs0.isEmpty
  · rw [if_pos he] at h; exact absurd h (by simp)
  · rw [if_neg he] at h
    cases hg : grow_loop leafs0.length 64 1 1 with
    | error e => rw [hg] at h; exact absurd h (by simp)
    | ok ph =>
      obtain ⟨power, hei⟩ := ph
      rw [hg] at h
      dsimp only at h
      obtain ⟨h1, h2, h3⟩ := grow_loop_ok leafs0.length 64 1 1 power hei rfl
        (by omega) hg
      injection h with h5
      have hf : leafs0 ++ List.replicate (power - leafs0.length)
          (Leaf.new ctx "0" 0) = filled := congrArg Prod.fst h5
      have hh : hei = height := congrArg (fun q => q.2.1) h5
      constructor
      · rw [← hf]
        simp only [List.length_append, List.length_replicate]
        rw [← hh, h2] at *
        omega
      · omega

theorem create_tree_good (ctx : Ctx) (leafs0 : List Leaf) (t : MerkleSumTree)
    (h : create_tree ctx leafs0 = .ok t) : GoodTree ctx t := by
  rw [create_tree] at h
  by_cases he : leafs0.isEmpty
  · rw [if_pos he] at h; exact absurd h (by simp)
  · rw [if_neg he] at h
    cases hf : fill_leafs ctx leafs0 with
    | error e => rw [hf] at h; exact absurd h (by simp)
    | ok trip =>
      obtain ⟨leafs, height, zi⟩ := trip
      rw [hf] at h
      dsimp only at h
      obtain ⟨hlen, hh1⟩ := fill_leafs_ok ctx leafs0 leafs height zi hf
      cases hb : build_levels ctx leafs.length (leafs.map Leaf.node) with
      | error e => rw [hb] at h; exact absurd h (by simp)
      | ok upper =>
        rw [hb] at h
        dsimp only at h
        injection h with h1
        obtain ⟨Ls, hch, hlsl, hju⟩ := build_levels_chained ctx leafs.length
          (height - 1) (leafs.map Leaf.node) upper
          (by simpa using hlen) (by omega) hb
        subst h1
        refine ⟨Ls, hch, ?_, ?_⟩
        · show Ls.length + 1 = height
          omega
        · show leafs.map Leaf.node ++ upper
            = (leafs.map Leaf.node :: Ls).flatten
          rw [hju]
          rfl

theorem chained_head_length (ctx : Ctx) (Ls : List (List Node))
    (h : Chained ctx Ls) :
    (Ls.headD []).length = 2 ^ (Ls.length - 1) := by
  induction h with
  | single l hl => simpa using hl
  | cons l next rest hp hch ih =>
    simp only [List.headD_cons, List.length_cons] at ih ⊢
    rw [Nat.add_sub_cancel] at ih ⊢
    rw [hp.1, ih, ← pow_succ']

theorem chained_flatten_ne_nil (ctx : Ctx) (Ls : List (List Node))
    (h : Chained ctx Ls) : Ls.flatten ≠ [] := by
  induction h with
  | single l hl =>
    cases l with
    | nil => simp at hl
    | cons a l2 => simp
  | cons l next rest hp hch ih =>
    simp only [List.flatten_cons]
    intro hc
    exact ih (List.append_eq_nil.mp hc).2

theorem chained_root_getD (ctx : Ctx) (Ls : List (List Node))
    (h : Chained ctx Ls) :
    Ls.flatten.getD (Ls.flatten.length - 1) default = chainedRoot Ls := by
  induction h with
  | single l hl =>
    cases l with
    | nil => simp at hl
    | cons a l2 =>
      have h2 : l2 = [] := by
        cases l2 with
        | nil => rfl
        | cons b l3 => simp at hl
      subst h2
      rfl
  | cons l next rest hp hch ih =>
    have hF : (next :: rest).flatten ≠ [] := chained_flatten_ne_nil ctx _ hch
    have hFlen : 1 ≤ (next :: rest).flatten.length := by
      cases hFl : (next :: rest).flatten with
      | nil => exact absurd hFl hF
      | cons x xs => simp
    rw [List.flatten_cons, List.length_append]
    rw [show l.length + (next :: rest).flatten.length - 1
        = l.length + ((next :: rest).flatten.length - 1) from by omega]
    rw [getD_append_add, ih]
    rfl

theorem paired_sum (ctx : Ctx) :
    ∀ (next l : List Node), Paired ctx l next →
      (next.map Node.value).sum = (l.map Node.value).sum
  | [], l => by
    intro hp
    have h0 : l.length = 0 := by
      have := hp.1
      simpa using this
    have h1 : l = [] := List.length_eq_zero.mp h0
    subst h1
    rfl
  | v :: next2, l => by
    intro hp
    obtain ⟨hlen, hpt⟩ := hp
    cases l with
    | nil => simp at hlen
    | cons a l2 =>
      cases l2 with
      | nil => simp only [List.length_cons, List.length_nil] at hlen; omega
      | cons b l3 =>
        have hv : build_parent ctx a b = .ok v := by
          have h2 := hpt 0 (by simp)
          simpa using h2
        have hshift : Paired ctx l3 next2 := by
          constructor
          · simp only [List.length_cons] at hlen; omega
          · intro m hm
            have h2 := hpt (m + 1) (by simpa using Nat.succ_lt_succ hm)
            rw [show 2 * (m + 1) = (2 * m + 1) + 1 from by omega] at h2
            simpa using h2
        have hsum := paired_sum ctx next2 l3 hshift
        have hval := build_parent_value ctx a b v hv
        simp only [List.map_cons, List.sum_cons]
        rw [hsum]
        omega

theorem chained_sum (ctx : Ctx) (Ls : List (List Node)) (h : Chained ctx Ls) :
    (chainedRoot Ls).value = ((Ls.headD []).map Node.value).sum := by
  induction h with
  | single l hl =>
    cases l with
    | nil => simp at hl
    | cons a l2 =>
      have h2 : l2 = [] := by
        cases l2 with
        | nil => rfl
        | cons b l3 => simp at hl
      subst h2
      show a.value = ([a].map Node.value).sum
      simp
  | cons l next rest hp hch ih =>
    show (chainedRoot (next :: rest)).value = (l.map Node.value).sum
    simp only [List.headD_cons] at ih
    rw [ih]
    exact paired_sum ctx next l hp

theorem get_root_of_chained (ctx : Ctx) (t : MerkleSumTree)
    (Ls : List (List Node)) (hch : Chained ctx Ls) (hn : t.nodes = Ls.flatten) :
    t.get_root = .ok (chainedRoot Ls) := by
  have hne : Ls.flatten ≠ [] := chained_flatten_ne_nil ctx Ls hch
  rw [MerkleSumTree.get_root]
  cases hl : t.nodes.length with
  | zero =>
    rw [hn] at hl
    exact absurd (List.length_eq_zero.mp hl) hne
  | succ m =>
    have hflen : Ls.flatten.length = m + 1 := by rw [← hn]; exact hl
    show get_node_l t.nodes (m + 1 - 1) = .ok (chainedRoot Ls)
    rw [get_node_l, if_neg (by rw [hn]; omega)]
    rw [hn]
    rw [show m + 1 - 1 = Ls.flatten.length - 1 from by omega]
    rw [chained_root_getD ctx Ls hch]

theorem proof_loop_fold (ctx : Ctx) :
    ∀ (rest : List (List Node)) (l pre : List Node) (j : Nat),
      Chained ctx (l :: rest) → 2 ∣ pre.length → j < l.length →
      ∃ path,
        get_proof_loop (pre ++ (l :: rest).flatten) rest.length l.length j
            (pre.length + j) pre.length = .ok path ∧
        verify_fold ctx (l.getD j default) path = .ok (chainedRoot (l :: rest)) := by
  intro rest
  induction rest with
  | nil =>
    intro l pre j hch hpre hj
    have hl1 : l.length = 1 := by
      cases hch with
      | single _ h => exact h
    refine ⟨[], rfl, ?_⟩
    have hj0 : j = 0 := by omega
    subst hj0
    show Except.ok (l.getD 0 default) = .ok (chainedRoot [l])
    cases l with
    | nil => simp at hl1
    | cons a l2 => rfl
  | cons next rest2 ih =>
    intro l pre j hch hpre hj
    have hinv : Paired ctx l next ∧ Chained ctx (next :: rest2) := by
      cases hch with
      | cons _ _ _ hp hch2 => exact ⟨hp, hch2⟩
    obtain ⟨⟨hlen2, hpt⟩, hch2⟩ := hinv
    obtain ⟨q, hq⟩ := hpre
    have hnextpos : 0 < next.length := by omega
    have hj2 : j / 2 < next.length := by omega
    have hdiv : l.length / 2 = next.length := by omega
    have hpre2 : 2 ∣ (pre ++ l).length := by
      rw [List.length_append]
      omega
    obtain ⟨path2, hloop2, hfold2⟩ := ih next (pre ++ l) (j / 2) hch2 hpre2 hj2
    rw [List.length_append, List.append_assoc, ← hdiv] at hloop2
    rw [List.length_cons, List.flatten_cons]
    by_cases hpar : j % 2 = 0
    · have hj1 : j + 1 < l.length := by omega
      have hcond : (pre.length + j) % 2 = 0 := by omega
      have hnode : get_node_l (pre ++ (l ++ (next :: rest2).flatten))
            (pre.length + j + 1) = .ok (l.getD (j + 1) default) := by
        rw [get_node_l, if_neg (by simp only [List.length_append]; omega)]
        congr 1
        rw [show pre.length + j + 1 = pre.length + (j + 1) from by omega]
        rw [getD_append_add]
        exact getD_append_lt _ _ _ _ hj1
      have hbp : build_parent ctx (l.getD j default) (l.getD (j + 1) default)
          = .ok (next.getD (j / 2) default) := by
        have h2 := hpt (j / 2) hj2
        rw [show 2 * (j / 2) = j from by omega] at h2
        exact h2
      refine ⟨Neighbor.mk .Right (l.getD (j + 1) default) :: path2, ?_, ?_⟩
      · rw [get_proof_loop, if_pos hcond, hnode]
        dsimp only [Except.map]
        rw [hloop2]
      · rw [verify_fold]
        dsimp only
        rw [hbp]
        dsimp only
        rw [hfold2]
        rfl
    · have hjge : 1 ≤ j := by omega
      have hjm : j - 1 < l.length := by omega
      have hcond : ¬ ((pre.length + j) % 2 = 0) := by omega
      have hnode : get_node_l (pre ++ (l ++ (next :: rest2).flatten))
            (pre.length + j - 1) = .ok (l.getD (j - 1) default) := by
        rw [get_node_l, if_neg (by simp only [List.length_append]; omega)]
        congr 1
        rw [show pre.length + j - 1 = pre.length + (j - 1) from by omega]
        rw [getD_append_add]
        exact getD_append_lt _ _ _ _ hjm
      have hbp : build_parent ctx (l.getD (j - 1) default) (l.getD j default)
          = .ok (next.getD (j / 2) default) := by
        have h2 := hpt (j / 2) hj2
        rw [show 2 * (j / 2) = j - 1 from by omega] at h2
        rw [show j - 1 + 1 = j from by omega] at h2
        exact h2
      refine ⟨Neighbor.mk .Left (l.getD (j - 1) default) :: path2, ?_, ?_⟩
      · rw [get_proof_loop, if_neg hcond, hnode]
        dsimp only [Except.map]
        rw [hloop2]
      · rw [verify_fold]
        dsimp only
        rw [hbp]
        dsimp only
        rw [hfold2]
        rfl

theorem good_proof_roundtrip (ctx : Ctx) (t : MerkleSumTree)
    (hg : GoodTree ctx t) (i : Nat) (hi : i < t.leafs.length) :
    ∃ pr, t.get_proof i = .ok pr ∧ t.verify_proof ctx pr = .ok true := by
  obtain ⟨rest, hch, hhl, hnodes⟩ := hg
  have hiL : i < (t.leafs.map Leaf.node).length := by
    rw [List.length_map]; exact hi
  obtain ⟨path, hloop, hfold⟩ :=
    proof_loop_fold ctx rest (t.leafs.map Leaf.node) [] i hch (by simp) hiL
  simp only [List.nil_append, List.length_nil, Nat.zero_add] at hloop
  have hhead := chained_head_length ctx (t.leafs.map Leaf.node :: rest) hch
  simp only [List.headD_cons, List.length_cons, Nat.add_sub_cancel] at hhead
  have hstep : t.height - 1 = rest.length := by omega
  refine ⟨⟨t.leafs.getD i default, path⟩, ?_, ?_⟩
  · rw [MerkleSumTree.get_proof, if_neg (by omega)]
    rw [show t.get_leaf i = .ok (t.leafs.getD i default) from by
          rw [MerkleSumTree.get_leaf, if_neg (by omega)]]
    dsimp only
    rw [hstep, hnodes, ← hhead, hloop]
  · rw [MerkleSumTree.verify_proof]
    dsimp only
    rw [show (t.leafs.getD i default).node
          = (t.leafs.map Leaf.node).getD i default from
          (getD_map_node t.leafs i hi).symm]
    rw [hfold]
    dsimp only
    rw [get_root_of_chained ctx t (t.leafs.map Leaf.node :: rest) hch hnodes]
    dsimp only
    rw [show (chainedRoot (t.leafs.map Leaf.node :: rest)).is_equal
          (chainedRoot (t.leafs.map Leaf.node :: rest)) = true from by
          simp [Node.is_equal]]

theorem paired_update (ctx : Ctx) (l next : List Node) (j : Nat) (v v2 : Node)
    (hlen2 : l.length = 2 * next.length)
    (hpt : ∀ m, m < next.length →
      build_parent ctx (l.getD (2 * m) default) (l.getD (2 * m + 1) default)
        = .ok (next.getD m default))
    (hj : j < l.length)
    (hbp : build_parent ctx ((l.set j v).getD (2 * (j / 2)) default)
        ((l.set j v).getD (2 * (j / 2) + 1) default) = .ok v2) :
    Paired ctx (l.set j v) (next.set (j / 2) v2) := by
  have hj2 : j / 2 < next.length := by omega
  constructor
  · rw [List.length_set, List.length_set]; exact hlen2
  · intro m hm
    rw [List.length_set] at hm
    by_cases hmj : m = j / 2
    · subst hmj
      rw [getD_set_self next (j / 2) v2 default hj2]
      exact hbp
    · have h2m : (2 * m : Nat) ≠ j := by omega
      have h2m1 : (2 * m + 1 : Nat) ≠ j := by omega
      rw [getD_set_ne l j (2 * m) v default h2m]
      rw [getD_set_ne l j (2 * m + 1) v default h2m1]
      rw [getD_set_ne next (j / 2) m v2 default hmj]
      exact hpt m hm

theorem update_loop_ok (ctx : Ctx) :
    ∀ (rest : List (List Node)) (l pre : List Node) (j : Nat) (v : Node)
      (steps sz ci ls : Nat) (nodes_in nodes2 : List Node),
      Chained ctx (l :: rest) → 2 ∣ pre.length → j < l.length →
      steps = rest.length → sz = l.length → ci = pre.length + j →
      ls = pre.length →
      nodes_in = pre ++ ((l.set j v) :: rest).flatten →
      update_path_loop ctx steps nodes_in v sz j ci ls = (nodes2, none) →
      ∃ rest2, Chained ctx ((l.set j v) :: rest2) ∧ rest2.length = rest.length ∧
        nodes2 = pre ++ ((l.set j v) :: rest2).flatten := by
  intro rest
  induction rest with
  | nil =>
    intro l pre j v steps sz ci ls nodes_in nodes2 hch hpre hj hst hsz hci hls
      hni hup
    subst hst hsz hci hls hni
    have hl1 : l.length = 1 := by cases hch with | single _ h => exact h
    simp only [List.length_nil] at hup
    rw [update_path_loop] at hup
    refine ⟨[], Chained.single _ (by rw [List.length_set]; exact hl1), rfl, ?_⟩
    exact (congrArg Prod.fst hup).symm
  | cons next rest2 ih =>
    intro l pre j v steps sz ci ls nodes_in nodes2 hch hpre hj hst hsz hci hls
      hni hup
    subst hst hsz hci hls hni
    have hinv : Paired ctx l next ∧ Chained ctx (next :: rest2) := by
      cases hch with
      | cons _ _ _ hp hch2 => exact ⟨hp, hch2⟩
    obtain ⟨⟨hlen2, hpt⟩, hch2⟩ := hinv
    obtain ⟨q, hq⟩ := hpre
    have hnextpos : 0 < next.length := by omega
    have hj2 : j / 2 < next.length := by omega
    have hdiv : l.length / 2 = next.length := by omega
    have hpre2 : 2 ∣ (pre ++ l.set j v).length := by
      rw [List.length_append, List.length_set]
      omega
    rw [List.length_cons] at hup
    rw [update_path_loop, List.flatten_cons] at hup
    by_cases hpar : j % 2 = 0
    · have hj1 : j + 1 < l.length := by omega
      have hcond : (pre.length + j) % 2 = 0 := by omega
      have hneigh : get_node_l (pre ++ (l.set j v ++ (next :: rest2).flatten))
            (pre.length + j + 1) = .ok (l.getD (j + 1) default) := by
        rw [get_node_l, if_neg (by
          simp only [List.length_append, List.length_set]; omega)]
        congr 1
        rw [show pre.length + j + 1 = pre.length + (j + 1) from by omega]
        rw [getD_append_add]
        rw [getD_append_lt _ _ _ _ (by rw [List.length_set]; omega)]
        exact getD_set_ne l j (j + 1) v default (by omega)
      rw [if_pos hcond, hneigh] at hup
      dsimp only [Except.bind] at hup
      cases hbp : build_parent ctx v (l.getD (j + 1) default) with
      | error e =>
        rw [hbp] at hup
        dsimp only at hup
        exact absurd (congrArg Prod.snd hup) (by simp)
      | ok v2 =>
        rw [hbp] at hup
        dsimp only at hup
        have hbp2 : build_parent ctx ((l.set j v).getD (2 * (j / 2)) default)
            ((l.set j v).getD (2 * (j / 2) + 1) default) = .ok v2 := by
          rw [show 2 * (j / 2) = j from by omega]
          rw [getD_set_self l j v default hj]
          rw [getD_set_ne l j (j + 1) v default (by omega)]
          exact hbp
        have hsetnodes :
            (pre ++ (l.set j v ++ (next :: rest2).flatten)).set
                (pre.length + l.length + j / 2) v2
            = (pre ++ l.set j v) ++ ((next.set (j / 2) v2) :: rest2).flatten := by
          simp only [List.flatten_cons]
          rw [show pre.length + l.length + j / 2
              = pre.length + (l.length + j / 2) from by omega]
          rw [set_append_add]
          rw [show l.length + j / 2 = (l.set j v).length + j / 2 from by
                rw [List.length_set]]
          rw [set_append_add]
          rw [set_append_lt _ _ _ _ hj2]
          rw [List.append_assoc]
        obtain ⟨rest3, hch3, hlen3, hn3⟩ := ih next (pre ++ l.set j v) (j / 2)
          v2 rest2.length (l.length / 2) (pre.length + l.length + j / 2)
          (pre.length + l.length)
          ((pre ++ (l.set j v ++ (next :: rest2).flatten)).set
            (pre.length + l.length + j / 2) v2) nodes2 hch2 hpre2 hj2 rfl hdiv
          (by rw [List.length_append, List.length_set])
          (by rw [List.length_append, List.length_set])
          hsetnodes hup
        refine ⟨(next.set (j / 2) v2) :: rest3, ?_, ?_, ?_⟩
        · exact Chained.cons _ _ _
            (paired_update ctx l next j v v2 hlen2 hpt hj hbp2) hch3
        · simp only [List.length_cons]; omega
        · rw [hn3]
          simp only [List.flatten_cons, List.append_assoc]
    · have hjge : 1 ≤ j := by omega
      have hcond : ¬ ((pre.length + j) % 2 = 0) := by omega
      have hneigh : get_node_l (pre ++ (l.set j v ++ (next :: rest2).flatten))
            (pre.length + j - 1) = .ok (l.getD (j - 1) default) := by
        rw [get_node_l, if_neg (by
          simp only [List.length_append, List.length_set]; omega)]
        congr 1
        rw [show pre.length + j - 1 = pre.length + (j - 1) from by omega]
        rw [getD_append_add]
        rw [getD_append_lt _ _ _ _ (by rw [List.length_set]; omega)]
        exact getD_set_ne l j (j - 1) v default (by omega)
      rw [if_neg hcond, hneigh] at hup
      dsimp only [Except.bind] at hup
      cases hbp : build_parent ctx (l.getD (j - 1) default) v with
      | error e =>
        rw [hbp] at hup
        dsimp only at hup
        exact absurd (congrArg Prod.snd hup) (by simp)
      | ok v2 =>
        rw [hbp] at hup
        dsimp only at hup
        have hbp2 : build_parent ctx ((l.set j v).getD (2 * (j / 2)) default)
            ((l.set j v).getD (2 * (j / 2) + 1) default) = .ok v2 := by
          rw [show 2 * (j / 2) = j - 1 from by omega]
          rw [show j - 1 + 1 = j from by omega]
          rw [getD_set_self l j v default hj]
          rw [getD_set_ne l j (j - 1) v default (by omega)]
          exact hbp
        have hsetnodes :
            (pre ++ (l.set j v ++ (next :: rest2).flatten)).set
                (pre.length + l.length + j / 2) v2
            = (pre ++ l.set j v) ++ ((next.set (j / 2) v2) :: rest2).flatten := by
          simp only [List.flatten_cons]
          rw [show pre.length + l.length + j / 2
              = pre.length + (l.length + j / 2) from by omega]
          rw [set_append_add]
          rw [show l.length + j / 2 = (l.set j v).length + j / 2 from by
                rw [List.length_set]]
          rw [set_append_add]
          rw [set_append_lt _ _ _ _ hj2]
          rw [List.append_assoc]
        obtain ⟨rest3, hch3, hlen3, hn3⟩ := ih next (pre ++ l.set j v) (j / 2)
          v2 rest2.length (l.length / 2) (pre.length + l.length + j / 2)
          (pre.length + l.length)
          ((pre ++ (l.set j v ++ (next :: rest2).flatten)).set
            (pre.length + l.length + j / 2) v2) nodes2 hch2 hpre2 hj2 rfl hdiv
          (by rw [List.length_append, List.length_set])
          (by rw [List.length_append, List.length_set])
          hsetnodes hup
        refine ⟨(next.set (j / 2) v2) :: rest3, ?_, ?_, ?_⟩
        · exact Chained.cons _ _ _
            (paired_update ctx l next j v v2 hlen2 hpt hj hbp2) hch3
        · simp only [List.length_cons]; omega
        · rw [hn3]
          simp only [List.flatten_cons, List.append_assoc]

theorem set_leaf_good (ctx : Ctx) (t : MerkleSumTree) (leaf : Leaf) (i : Nat)
    (t2 : MerkleSumTree) (hg : GoodTree ctx t)
    (hs : set_leaf ctx t leaf i = (t2, .ok ())) :
    GoodTree ctx t2 := by
  obtain ⟨rest, hch, hhl, hnodes⟩ := hg
  rw [set_leaf] at hs
  by_cases hb : t.leafs.length ≤ i
  · rw [if_pos hb] at hs
    exact absurd (congrArg Prod.snd hs) (by simp)
  · rw [if_neg hb] at hs
    dsimp only at hs
    have hi : i < t.leafs.length := by omega
    have hiL : i < (t.leafs.map Leaf.node).length := by
      rw [List.length_map]; omega
    have hhead := chained_head_length ctx (t.leafs.map Leaf.node :: rest) hch
    simp only [List.headD_cons, List.length_cons, Nat.add_sub_cancel] at hhead
    cases hup : update_path_loop ctx (t.height - 1) (t.nodes.set i leaf.node)
        leaf.node (2 ^ (t.height - 1)) i i 0 with
    | mk nodes2 err =>
      rw [hup] at hs
      cases err with
      | some e =>
        dsimp only at hs
        exact absurd (congrArg Prod.snd hs) (by simp)
      | none =>
        dsimp only at hs
        have ht2 := congrArg Prod.fst hs
        dsimp only at ht2
        obtain ⟨rest2, hch2, hlen2, hn2⟩ := update_loop_ok ctx rest
          (t.leafs.map Leaf.node) [] i leaf.node (t.height - 1)
          (2 ^ (t.height - 1)) i 0 (t.nodes.set i leaf.node) nodes2
          hch (by simp) hiL (by omega)
          (by rw [show t.height - 1 = rest.length from by omega]
              exact hhead.symm)
          (by simp) rfl
          (by rw [List.nil_append, List.flatten_cons, hnodes, List.flatten_cons]
              exact set_append_lt _ _ _ _ hiL)
          hup
        rw [← ht2]
        refine ⟨rest2, ?_, ?_, ?_⟩
        · show Chained ctx ((t.leafs.set i leaf).map Leaf.node :: rest2)
          rw [map_node_set]
          exact hch2
        · show rest2.length + 1 = t.height
          omega
        · show nodes2 = ((t.leafs.set i leaf).map Leaf.node :: rest2).flatten
          rw [map_node_set, hn2, List.nil_append]

theorem reachable_good (ctx : Ctx) (t : MerkleSumTree) (h : Reachable ctx t) :
    GoodTree ctx t := by
  induction h with
  | new_ok leafs t hc => exact create_tree_good ctx leafs t hc
  | push_ok t leaf t2 i hr hp ih =>
    rw [push] at hp
    cases hz : t.zero_index with
    | nil =>
      rw [hz] at hp
      dsimp only at hp
      cases hc : create_tree ctx (t.leafs ++ [leaf]) with
      | error e =>
        rw [hc] at hp
        exact absurd (congrArg Prod.snd hp) (by simp)
      | ok nt =>
        rw [hc] at hp
        dsimp only at hp
        have h2 : nt = t2 := congrArg Prod.fst hp
        rw [← h2]
        exact create_tree_good ctx _ nt hc
    | cons z zs =>
      rw [hz] at hp
      dsimp only at hp
      cases hsl : set_leaf ctx t leaf z with
      | mk t3 r =>
        rw [hsl] at hp
        cases r with
        | ok u =>
          cases u
          dsimp only at hp
          have h3 : t3 = t2 := congrArg Prod.fst hp
          rw [← h3]
          exact set_leaf_good ctx t leaf z t3 ih hsl
        | error e =>
          dsimp only at hp
          exact absurd (congrArg Prod.snd hp) (by simp)
  | set_leaf_ok t leaf i t2 hr hs ih =>
    exact set_leaf_good ctx t leaf i t2 ih hs
  | remove_ok t i t2 hr hrm ih =>
    rw [remove] at hrm
    by_cases hb : t.leafs.length ≤ i
    · rw [if_pos hb] at hrm
      exact absurd (congrArg Prod.snd hrm) (by simp)
    · rw [if_neg hb] at hrm
      exact set_leaf_good ctx t _ i t2 ih hrm

/-- C1: for every tree built by `new` from a non-empty leaf list and
transformed by any sequence of successful `push`/`set_leaf`/`remove`
mutations, and for every index `i < |leafs|`, `get_proof i` succeeds and
`verify_proof` accepts the returned proof. -/
theorem get_proof_verify_roundtrip (ctx : Ctx) (t : MerkleSumTree)
    (hr : Reachable ctx t) (i : Nat) (hi : i < t.leafs.length) :
    ∃ pr, t.get_proof i = .ok pr ∧ t.verify_proof ctx pr = .ok true :=
  good_proof_roundtrip ctx t (reachable_good ctx t hr) i hi

/-- Witness for C1: the theorem applied to the concrete two-leaf tree `T2`
and index 0. -/
theorem get_proof_verify_roundtrip_witness :
    ∃ pr, T2.get_proof 0 = .ok pr ∧ T2.verify_proof ctx0 pr = .ok true :=
  get_proof_verify_roundtrip ctx0 T2
    (Reachable.new_ok [Leaf.new ctx0 "a" 1, Leaf.new ctx0 "b" 2] T2 rfl) 0
    (by decide)

/-- C6: on every reachable tree state (where by construction no
`build_parent` call failed), the root's value is the exact sum of all leaf
values. -/
theorem root_sum_eq_leaf_sum (ctx : Ctx) (t : MerkleSumTree)
    (hr : Reachable ctx t) :
    ∃ r, t.get_root = .ok r ∧
      r.value = (t.leafs.map (fun lf => lf.node.value)).sum := by
  obtain ⟨rest, hch, hhl, hnodes⟩ := reachable_good ctx t hr
  refine ⟨chainedRoot (t.leafs.map Leaf.node :: rest),
    get_root_of_chained ctx t _ hch hnodes, ?_⟩
  rw [chained_sum ctx _ hch]
  simp only [List.headD_cons, List.map_map]
  rfl

/-- Witness for C6: the theorem applied to the concrete two-leaf tree `T2`,
whose root sum is 3 = 1 + 2. -/
theorem root_sum_eq_leaf_sum_witness :
    ∃ r, T2.get_root = .ok r ∧
      r.value = (T2.leafs.map (fun lf => lf.node.value)).sum :=
  root_sum_eq_leaf_sum ctx0 T2
    (Reachable.new_ok [Leaf.new ctx0 "a" 1, Leaf.new ctx0 "b" 2] T2 rfl)
